import Mathlib

/-!
Shallow embedding of `tracing-serde-structured` (src/lib.rs).

Modelling conventions:
* Machine integers `u64`/`i64` are carried as `Nat`/`Int`; the code never
  performs arithmetic on them, it only moves them into the serializer.
* An `f64` is carried as its 64-bit pattern (a `Nat`); the code never
  inspects or computes with the float, it only forwards it.
* A `&'a str` / `String` is a Lean `String`; the borrowed/owned distinction
  of `CowString` is kept as an explicit tag, since the derived `Ord` of the
  Rust enum observes it.
* A deterministic downstream serializer's output is a function of the
  sequence of serializer calls it receives.  We therefore model the output
  of serializing a map as the size hint passed to `serialize_map` together
  with the ordered list of `serialize_entry` calls (each entry already
  reduced to what the serializer observes: key content string and the
  serialized form of the `SerializeValue`).  Two wrappers produce identical
  output under every deterministic serializer iff these abstract outputs
  are equal.
* `format_args!("{:?}", value)` at visit time is modelled by the rendered
  text of the value, carried as a `String`: the live `DebugRecord::Ser`
  arm and the owned snapshot both serialize exactly that text.
-/

namespace TracingSerde

/-- Embedding of `CowString<'a>`: `Borrowed(&'a str)` or `Owned(String)`
(`Owned` exists under the `std` feature). -/
inductive CowString where
  | borrowed (s : String)
  | owned (s : String)
deriving DecidableEq

/-- Embedding of `CowString::as_str`: the string content, independent of
representation. -/
def CowString.asStr : CowString → String
  | .borrowed s => s
  | .owned s => s

/-- Discriminant of the Rust enum, in declaration order: `Borrowed` = 0,
`Owned` = 1.  The derived `Ord`/`PartialOrd` compare this first. -/
def CowString.tag : CowString → Nat
  | .borrowed _ => 0
  | .owned _ => 1

/-- Lexicographic strict order on char lists by code point.  This mirrors
`str`'s `Ord` in Rust: byte-wise lexicographic comparison of UTF-8, which
coincides with code-point-wise lexicographic comparison. -/
def strLtB : List Char → List Char → Bool
  | [], [] => false
  | [], _ :: _ => true
  | _ :: _, [] => false
  | a :: as, b :: bs =>
    if a.val.toNat < b.val.toNat then true
    else if b.val.toNat < a.val.toNat then false
    else strLtB as bs

/-- Strict order on strings by content (Rust `str: Ord`). -/
def strLt (a b : String) : Prop :=
  strLtB a.data b.data = true

instance (a b : String) : Decidable (strLt a b) :=
  inferInstanceAs (Decidable (_ = true))

/-- Embedding of the DERIVED `Ord` on `CowString` (`#[derive(... PartialOrd, Ord)]`):
lexicographic on (variant discriminant, payload).  Note this is NOT
content-only: every `Borrowed` sorts before every `Owned`. -/
def CowString.lt (a b : CowString) : Prop :=
  a.tag < b.tag ∨ (a.tag = b.tag ∧ strLt a.asStr b.asStr)

instance (a b : CowString) : Decidable (CowString.lt a b) :=
  inferInstanceAs (Decidable (_ ∨ _ ∧ _))

/-- Embedding of the manual `impl PartialEq for CowString`: equality of
`as_str()` contents only. -/
def CowString.beqContent (a b : CowString) : Bool :=
  a.asStr == b.asStr

/-- Embedding of `impl Hash for CowString`: `self.as_str().hash(state)`.
The hasher is abstracted as an arbitrary function of the string content. -/
def CowString.hashWith (h : String → Nat) (c : CowString) : Nat :=
  h c.asStr

/-- Embedding of `CowString::to_owned` (std): always an `Owned` copy of the
content. -/
def CowString.toOwnedCow (c : CowString) : CowString :=
  .owned c.asStr

/-- Embedding of `DebugRecord<'a>`: `Ser(&'a Arguments<'a>)` (live,
carried as the rendered text of the format arguments) or `De(CowString)`
(owned snapshot). -/
inductive DebugRecord where
  | ser (formatted : String)
  | de (msg : CowString)
deriving DecidableEq

/-- Embedding of `DebugRecord::to_owned`: `Ser(args)` becomes
`De(Owned(args.to_string()))`, `De(d)` deep-copies the string. -/
def DebugRecord.toOwnedRec : DebugRecord → DebugRecord
  | .ser f => .de (.owned f)
  | .de d => .de d.toOwnedCow

/-- Embedding of `SerializeValue<'a>`: the tagged union of recorded field
value kinds. -/
inductive SerializeValue where
  | debug (d : DebugRecord)
  | str (s : CowString)
  | f64 (bits : Nat)
  | i64 (i : Int)
  | u64 (u : Nat)
  | bool (b : Bool)
deriving DecidableEq

/-- Embedding of `SerializeValue::to_owned`. -/
def SerializeValue.toOwnedVal : SerializeValue → SerializeValue
  | .debug d => .debug d.toOwnedRec
  | .str s => .str s.toOwnedCow
  | .f64 x => .f64 x
  | .i64 x => .i64 x
  | .u64 x => .u64 x
  | .bool x => .bool x

/-- What a downstream serializer observes for one serialized
`SerializeValue`: the variant tag plus the payload reduced to content
(`CowString` serializes as its `as_str()`, `DebugRecord` as the rendered
text in both arms). -/
inductive SerValue where
  | debugOut (s : String)
  | strOut (s : String)
  | f64Out (bits : Nat)
  | i64Out (i : Int)
  | u64Out (u : Nat)
  | boolOut (b : Bool)
deriving DecidableEq

/-- Serialized form of a `SerializeValue`: follows the derived `Serialize`
of the enum plus the manual `Serialize` impls of `DebugRecord` (both arms
emit the rendered text) and `CowString` (content string). -/
def serializeValue : SerializeValue → SerValue
  | .debug (.ser f) => .debugOut f
  | .debug (.de m) => .debugOut m.asStr
  | .str s => .strOut s.asStr
  | .f64 x => .f64Out x
  | .i64 x => .i64Out x
  | .u64 x => .u64Out x
  | .bool x => .boolOut x

/-- Generic deserialization of one `SerializeValue` from its serialized
form: the derived `Deserialize` rebuilds the same variant; string payloads
come back as `Borrowed` (`CowString: #[serde(from = "&'a str")]`), and a
`Debug` payload becomes `DebugRecord::De` (`#[serde(from = "CowString<'a>")]`). -/
def deserValue : SerValue → SerializeValue
  | .debugOut s => .debug (.de (.borrowed s))
  | .strOut s => .str (.borrowed s)
  | .f64Out x => .f64 x
  | .i64Out x => .i64 x
  | .u64Out x => .u64 x
  | .boolOut x => .bool x

/-- A field value as pushed by the tracing framework through the `Visit`
protocol (one constructor per `record_*` callback; the debug case carries
the `{:?}`-rendered text of the value). -/
inductive FieldVal where
  | fBool (b : Bool)
  | fI64 (i : Int)
  | fU64 (u : Nat)
  | fF64 (bits : Nat)
  | fStr (s : String)
  | fDebug (formatted : String)
deriving DecidableEq

/-- The `SerializeValue` that `SerdeMapVisitor`'s `record_*` methods hand to
`serialize_entry` for each pushed kind (live path: borrowed string, live
debug arguments). -/
def SerdeMapVisitor.valueFor : FieldVal → SerializeValue
  | .fBool b => .bool b
  | .fI64 i => .i64 i
  | .fU64 u => .u64 u
  | .fF64 x => .f64 x
  | .fStr s => .str (.borrowed s)
  | .fDebug f => .debug (.ser f)

/-- The `SerializeValue` that `HashVisit`'s `record_*` methods insert for
each pushed kind (owned string copies, owned debug snapshot). -/
def HashVisit.valueFor : FieldVal → SerializeValue
  | .fBool b => .bool b
  | .fI64 i => .i64 i
  | .fU64 u => .u64 u
  | .fF64 x => .f64 x
  | .fStr s => .str (.owned s)
  | .fDebug f => .debug (.de (.owned f))

/-- One `serialize_entry` call as the downstream serializer observes it:
the field name (`field.name()`, a `&str`) and the serialized value. -/
abbrev SEntry : Type := String × SerValue

/-- The entry `SerdeMapVisitor` emits for one pushed field. -/
def liveEntry (p : String × FieldVal) : SEntry :=
  (p.1, serializeValue (SerdeMapVisitor.valueFor p.2))

/-- Abstract deterministic downstream map serializer with error type `ε`:
for each call, given the entries already accepted, it either succeeds or
returns an error.  Determinism: the outcome is a function of the call
history. -/
structure DownstreamMap (ε : Type) where
  entryResult : List SEntry → SEntry → Option ε
  endResult : List SEntry → Option ε

/-- State of `SerdeMapVisitor<S>`: the underlying serializer is represented
by the ordered list of `serialize_entry` calls performed on it so far,
and `state : Result<(), S::Error>`. -/
structure SerdeMapVisitor (ε : Type) where
  calls : List SEntry
  state : Except ε Unit

/-- Embedding of `SerdeMapVisitor::new`: fresh serializer, `state = Ok(())`. -/
def SerdeMapVisitor.init (ε : Type) : SerdeMapVisitor ε :=
  ⟨[], .ok ()⟩

/-- Embedding of the `Visit` impl for `SerdeMapVisitor`: every `record_*`
method first checks `self.state.is_ok()`; if a prior error is recorded the
push does nothing, otherwise it performs exactly one
`serialize_entry(field.name(), &value)` call and stores its result. -/
def recordField (D : DownstreamMap ε) (v : SerdeMapVisitor ε)
    (p : String × FieldVal) : SerdeMapVisitor ε :=
  match v.state with
  | .error _ => v
  | .ok _ =>
    match D.entryResult v.calls (liveEntry p) with
    | none => ⟨v.calls ++ [liveEntry p], .ok ()⟩
    | some e => ⟨v.calls ++ [liveEntry p], .error e⟩

/-- The tracing framework's `record` dispatch: pushes each visited field in
visitation order through the visitor. -/
def visitAll (D : DownstreamMap ε) (v : SerdeMapVisitor ε)
    (fields : List (String × FieldVal)) : SerdeMapVisitor ε :=
  fields.foldl (recordField D) v

/-- Embedding of `SerdeMapVisitor::finish`: `self.state?` then
`self.serializer.end()`.  On success the result is the serializer's output,
i.e. the accepted call trace. -/
def SerdeMapVisitor.finish (D : DownstreamMap ε) (v : SerdeMapVisitor ε) :
    Except ε (List SEntry) :=
  match v.state with
  | .error e => .error e
  | .ok _ =>
    match D.endResult v.calls with
    | none => .ok v.calls
    | some e => .error e

/-- Embedding of `SerdeMapVisitor::take_serializer`: `self.state?` then
`Ok(self.serializer)` (the open map context, represented by its call
trace, without closing it). -/
def SerdeMapVisitor.takeSerializer (v : SerdeMapVisitor ε) :
    Except ε (List SEntry) :=
  match v.state with
  | .error e => .error e
  | .ok _ => .ok v.calls

/-- A downstream serializer that never fails; its accepted trace is the
canonical output of a successful serialization. -/
def okDownstream : DownstreamMap Unit :=
  ⟨fun _ _ => none, fun _ => none⟩

/-- Output of serializing one map under a deterministic serializer: the
size hint given to `serialize_map` and the ordered `serialize_entry`
calls. -/
structure MapOut where
  sizeHint : Option Nat
  entries : List SEntry
deriving DecidableEq

/-- `RecordMap<'a> = TracingMap<CowString<'a>, SerializeValue<'a>>`; with
the `std` feature this is `BTreeMap`, modelled as an association list kept
strictly sorted by the key order (the derived `Ord` of `CowString`). -/
abbrev RecordMap : Type := List (CowString × SerializeValue)

/-- The `BTreeMap` ordering invariant: keys strictly ascending under the
derived `Ord` of `CowString`. -/
def RMSorted (m : RecordMap) : Prop :=
  List.Pairwise (fun p q : CowString × SerializeValue => CowString.lt p.1 q.1) m

instance (m : RecordMap) : Decidable (RMSorted m) :=
  inferInstanceAs (Decidable (List.Pairwise _ m))

/-- Embedding of `BTreeMap::insert` on the sorted association list: place
the new entry at its ordered position; an existing entry with an
`Ord`-equal key keeps its key and has its value replaced. -/
def insertRM (k : CowString) (v : SerializeValue) : RecordMap → RecordMap
  | [] => [(k, v)]
  | (k0, v0) :: rest =>
    if CowString.lt k k0 then (k, v) :: (k0, v0) :: rest
    else if CowString.lt k0 k then (k0, v0) :: insertRM k v rest
    else (k0, v) :: rest

/-- Embedding of `BTreeMap::get`: the value stored under an `Ord`-equal
key, if any.  On a sorted map with `Ord`-distinct keys this is the unique
match. -/
def rmLookup (m : RecordMap) (k : CowString) : Option SerializeValue :=
  (m.find? (fun p => p.1 == k)).map (fun p => p.2)

/-- Embedding of `HashVisit` run over a visitation sequence (`e.record(&mut hv)`
with `hv = HashVisit(BTreeMap::new())`): each `record_*` call inserts
`(Owned(field.name()), owned value)` into the map. -/
def hashVisit (visited : List (String × FieldVal)) : RecordMap :=
  visited.foldl (fun m p => insertRM (.owned p.1) (HashVisit.valueFor p.2) m) []

/-- Last value pushed for a given field name in a visitation sequence. -/
def lastValueFor (visited : List (String × FieldVal)) (name : String) :
    Option FieldVal :=
  (visited.reverse.find? (fun p => p.1 == name)).map (fun p => p.2)

/-- A live entity that records fields: `declaredCount` is what the
serialization path passes as the map size hint (`serf.fields().count()`
for an `Event`, `serf.len()` for a `ValueSet` or `Record`), `visited` is
the visitation sequence its `record` produces. -/
structure LiveFields where
  declaredCount : Nat
  visited : List (String × FieldVal)
deriving DecidableEq

/-- Output of the live serialization path shared by
`SerializeRecordFields`/`SerializeSpanFields`/`SerializeRecord`:
`serializer.serialize_map(Some(items))`, then a fresh `SerdeMapVisitor`
driven by `serf.record`, then `finish` (success path of a non-failing
serializer). -/
def serializeLiveFields (lf : LiveFields) : MapOut :=
  ⟨some lf.declaredCount,
   (visitAll okDownstream (SerdeMapVisitor.init Unit) lf.visited).calls⟩

/-- Entry the serializer observes for one `RecordMap` entry (`CowString`
key serializes as its content). -/
def deEntry (p : CowString × SerializeValue) : SEntry :=
  (p.1.asStr, serializeValue p.2)

/-- Output of serializing a materialized `RecordMap` (serde's `BTreeMap`
serialization: `serialize_map(Some(len))`, then every entry in map
order). -/
def serializeDeFields (m : RecordMap) : MapOut :=
  ⟨some m.length, m.map deEntry⟩

/-- Generic deserialization of a `RecordMap` from a serialized map: serde's
`BTreeMap` visitor inserts every entry in encountered order; keys come
back as `Borrowed`, values through `deserValue`. -/
def deserRecordMap (entries : List SEntry) : RecordMap :=
  entries.foldl (fun m p => insertRM (.borrowed p.1) (deserValue p.2) m) []

/-- Deep copy of a `RecordMap`
(`dsrf.iter().map(|(k, v)| (k.to_owned(), v.to_owned())).collect()`). -/
def toOwnedRM (m : RecordMap) : RecordMap :=
  m.map (fun p => (p.1.toOwnedCow, p.2.toOwnedVal))

/-- Embedding of `SerializeRecordFields<'a>`: `Ser(&'a Event<'a>)` (live)
or `De(RecordMap<'a>)` (materialized). -/
inductive SerializeRecordFields where
  | ser (e : LiveFields)
  | de (m : RecordMap)

/-- Serialized output of `SerializeRecordFields` (its manual `Serialize`
impl), success path. -/
def SerializeRecordFields.serialize : SerializeRecordFields → MapOut
  | .ser e => serializeLiveFields e
  | .de m => serializeDeFields m

/-- Embedding of `SerializeRecordFields::to_owned`: the `Ser` arm runs
`HashVisit` over the event's fields; the `De` arm deep-copies. -/
def SerializeRecordFields.toOwned : SerializeRecordFields → SerializeRecordFields
  | .ser e => .de (hashVisit e.visited)
  | .de m => .de (toOwnedRM m)

/-- Embedding of the `From<RecordMap>` impl backing
`#[serde(from = "RecordMap<'a>")]` on `SerializeRecordFields`. -/
def SerializeRecordFields.fromMap (m : RecordMap) : SerializeRecordFields :=
  .de m

/-- Full deserialization of a `SerializeRecordFields`: generic map
deserialization followed by the `From` conversion. -/
def SerializeRecordFields.deserialize (entries : List SEntry) :
    SerializeRecordFields :=
  SerializeRecordFields.fromMap (deserRecordMap entries)

/-- Is the wrapper the materialized (`De`) variant? -/
def SerializeRecordFields.isDe : SerializeRecordFields → Bool
  | .ser _ => false
  | .de _ => true

/-- Embedding of `SerializeSpanFields<'a>`:
`Ser(&'a ValueSet<'a>)` or `De(RecordMap<'a>)`. -/
inductive SerializeSpanFields where
  | ser (vs : LiveFields)
  | de (m : RecordMap)

/-- Serialized output of `SerializeSpanFields`, success path. -/
def SerializeSpanFields.serialize : SerializeSpanFields → MapOut
  | .ser vs => serializeLiveFields vs
  | .de m => serializeDeFields m

/-- Embedding of `SerializeSpanFields::to_owned`. -/
def SerializeSpanFields.toOwned : SerializeSpanFields → SerializeSpanFields
  | .ser vs => .de (hashVisit vs.visited)
  | .de m => .de (toOwnedRM m)

/-- Embedding of the `From<RecordMap>` impl on `SerializeSpanFields`. -/
def SerializeSpanFields.fromMap (m : RecordMap) : SerializeSpanFields :=
  .de m

/-- Full deserialization of a `SerializeSpanFields`. -/
def SerializeSpanFields.deserialize (entries : List SEntry) :
    SerializeSpanFields :=
  SerializeSpanFields.fromMap (deserRecordMap entries)

/-- Is the wrapper the materialized (`De`) variant? -/
def SerializeSpanFields.isDe : SerializeSpanFields → Bool
  | .ser _ => false
  | .de _ => true

/-- Embedding of `SerializeRecord<'a>`:
`Ser(&'a Record<'a>)` or `De(RecordMap<'a>)`. -/
inductive SerializeRecord where
  | ser (r : LiveFields)
  | de (m : RecordMap)

/-- Serialized output of `SerializeRecord`, success path. -/
def SerializeRecord.serialize : SerializeRecord → MapOut
  | .ser r => serializeLiveFields r
  | .de m => serializeDeFields m

/-- Embedding of `SerializeRecord::to_owned`. -/
def SerializeRecord.toOwned : SerializeRecord → SerializeRecord
  | .ser r => .de (hashVisit r.visited)
  | .de m => .de (toOwnedRM m)

/-- Embedding of the `From<RecordMap>` impl on `SerializeRecord`. -/
def SerializeRecord.fromMap (m : RecordMap) : SerializeRecord :=
  .de m

/-- Full deserialization of a `SerializeRecord`. -/
def SerializeRecord.deserialize (entries : List SEntry) : SerializeRecord :=
  SerializeRecord.fromMap (deserRecordMap entries)

/-- Is the wrapper the materialized (`De`) variant? -/
def SerializeRecord.isDe : SerializeRecord → Bool
  | .ser _ => false
  | .de _ => true

/-- Embedding of `SerializeFieldSet<'a>`: `Ser(&'a FieldSet)` (the live
declaration-ordered field-name set) or `De(TracingVec<CowString<'a>>)`. -/
inductive SerializeFieldSet where
  | ser (names : List String)
  | de (names : List CowString)

/-- Output of serializing one sequence: the size hint given to
`serialize_seq` and the element strings in order. -/
structure SeqOut where
  sizeHint : Option Nat
  elems : List String
deriving DecidableEq

/-- Serialized output of `SerializeFieldSet` (manual impl: live arm emits
`serialize_seq(Some(len))` then each `field.name()`; `De` arm serializes
the vector of `CowString`s). -/
def SerializeFieldSet.serialize : SerializeFieldSet → SeqOut
  | .ser ns => ⟨some ns.length, ns⟩
  | .de ns => ⟨some ns.length, ns.map CowString.asStr⟩

/-- Embedding of the `From<TracingVec<CowString>>` impl backing
`#[serde(from = ...)]` on `SerializeFieldSet`. -/
def SerializeFieldSet.fromVec (v : List CowString) : SerializeFieldSet :=
  .de v

/-- Full deserialization of a `SerializeFieldSet`: generic sequence
deserialization (each element a `Borrowed` string) then the `From`
conversion. -/
def SerializeFieldSet.deserialize (elems : List String) : SerializeFieldSet :=
  SerializeFieldSet.fromVec (elems.map CowString.borrowed)

/-- Is the wrapper the materialized (`De`) variant? -/
def SerializeFieldSet.isDe : SerializeFieldSet → Bool
  | .ser _ => false
  | .de _ => true

/-- Embedding of the `From<CowString>` impl backing
`#[serde(from = "CowString<'a>")]` on `DebugRecord`. -/
def DebugRecord.fromCow (c : CowString) : DebugRecord :=
  .de c

/-- Full deserialization of a `DebugRecord`: generic string
deserialization (a `Borrowed` `CowString`) then the `From` conversion. -/
def DebugRecord.deserialize (s : String) : DebugRecord :=
  DebugRecord.fromCow (.borrowed s)

/-- Is the wrapper the materialized (`De`) variant? -/
def DebugRecord.isDe : DebugRecord → Bool
  | .ser _ => false
  | .de _ => true

/-- Embedding of `SerializeLevel` (`#[repr(usize)]`, explicit
discriminants `Trace = 0 .. Error = 4`, `#[serde(rename_all = "UPPERCASE")]`). -/
inductive SerializeLevel where
  | trace
  | debug
  | info
  | warn
  | error
deriving DecidableEq

/-- The declared `#[repr(usize)]` discriminant of each variant. -/
def SerializeLevel.discr : SerializeLevel → Nat
  | .trace => 0
  | .debug => 1
  | .info => 2
  | .warn => 3
  | .error => 4

/-- The literal token each variant serializes as
(`rename_all = "UPPERCASE"` applied to the variant name). -/
def SerializeLevel.token : SerializeLevel → String
  | .trace => "TRACE"
  | .debug => "DEBUG"
  | .info => "INFO"
  | .warn => "WARN"
  | .error => "ERROR"

/-- The upstream `tracing_core::Level` (a closed set of five constants). -/
inductive TracingLevel where
  | trace
  | debug
  | info
  | warn
  | error
deriving DecidableEq

/-- Embedding of `impl AsSerde for Level`: each constant maps to the
corresponding `SerializeLevel` variant. -/
def TracingLevel.asSerde : TracingLevel → SerializeLevel
  | .error => .error
  | .warn => .warn
  | .info => .info
  | .debug => .debug
  | .trace => .trace

/-- Upstream `tracing_core::Metadata` as the adapter consumes it: the
descriptive accessors used by `Metadata::as_serde`. -/
structure Metadata where
  name : String
  target : String
  level : TracingLevel
  modulePath : Option String
  file : Option String
  line : Option Nat
  fieldNames : List String
  isSpan : Bool
  isEvent : Bool

/-- Embedding of `SerializeMetadata<'a>`. -/
structure SerializeMetadata where
  name : CowString
  target : CowString
  level : SerializeLevel
  modulePath : Option CowString
  file : Option CowString
  line : Option Nat
  fields : SerializeFieldSet
  isSpan : Bool
  isEvent : Bool

/-- Embedding of `impl AsSerde for Metadata`. -/
def Metadata.asSerde (m : Metadata) : SerializeMetadata :=
  ⟨.borrowed m.name, .borrowed m.target, m.level.asSerde,
   m.modulePath.map CowString.borrowed, m.file.map CowString.borrowed,
   m.line, .ser m.fieldNames, m.isSpan, m.isEvent⟩

/-- Serialized output of a `SerializeMetadata` (derived `Serialize`:
each struct field in declaration order; the level serializes as its
token). -/
structure MetadataOut where
  name : String
  target : String
  level : String
  modulePath : Option String
  file : Option String
  line : Option Nat
  fields : SeqOut
  isSpan : Bool
  isEvent : Bool
deriving DecidableEq

/-- Serialization of `SerializeMetadata`, success path. -/
def serializeMetadata (m : SerializeMetadata) : MetadataOut :=
  ⟨m.name.asStr, m.target.asStr, m.level.token,
   m.modulePath.map CowString.asStr, m.file.map CowString.asStr,
   m.line, m.fields.serialize, m.isSpan, m.isEvent⟩

/-- Embedding of `SerializeId` (`id: NonZeroU64`, carried as its value). -/
structure SerializeId where
  id : Nat
deriving DecidableEq

/-- Upstream `tracing_core::Event` as the adapter consumes it. -/
structure EventModel where
  fields : LiveFields
  metadata : Metadata
  parent : Option Nat

/-- Embedding of `SerializeEvent<'a>`. -/
structure SerializeEvent where
  fields : SerializeRecordFields
  metadata : SerializeMetadata
  parent : Option SerializeId

/-- Embedding of `impl AsSerde for Event`. -/
def EventModel.asSerde (e : EventModel) : SerializeEvent :=
  ⟨.ser e.fields, e.metadata.asSerde, e.parent.map SerializeId.mk⟩

/-- Serialized output of a `SerializeEvent` (derived `Serialize`: fields,
metadata, parent in declaration order). -/
structure EventOut where
  fields : MapOut
  metadata : MetadataOut
  parent : Option Nat
deriving DecidableEq

/-- Serialization of `SerializeEvent`, success path. -/
def serializeEvent (e : SerializeEvent) : EventOut :=
  ⟨e.fields.serialize, serializeMetadata e.metadata,
   e.parent.map SerializeId.id⟩

/-- Capacity of the bounded (`no_std`) containers:
`TracingVec<T> = heapless::Vec<T, 32>` and
`TracingMap<K, V> = heapless::FnvIndexMap<K, V, 32>`. -/
def tracingMapCap : Nat := 32

/-- Modelled from the spec: the fixed-capacity map insert used by the
`no_std` `TracingMap` (`heapless::FnvIndexMap::insert`, whose source is an
external crate not under src/).  Per the spec, inserting into a full
fixed-capacity container fails with a capacity error and leaves the
existing entries intact; inserting an existing key replaces its value.
The result is the (possibly updated) map together with the rejected entry
when capacity is exceeded. -/
def boundedInsert [DecidableEq K] (cap : Nat) (m : List (K × V)) (k : K)
    (v : V) : List (K × V) × Option (K × V) :=
  if (m.map Prod.fst).contains k then
    (m.map (fun p => if p.1 = k then (p.1, v) else p), none)
  else if m.length < cap then (m ++ [(k, v)], none)
  else (m, some (k, v))

/-! ### Order lemmas for the string and key orders -/

theorem strLtB_irrefl (l : List Char) : strLtB l l = false := by
  induction l with
  | nil => rfl
  | cons a as ih => simp [strLtB, ih]

theorem strLtB_asymm : ∀ (a b : List Char), strLtB a b = true → strLtB b a = false
  | [], [] => by simp [strLtB]
  | [], _ :: _ => by simp [strLtB]
  | _ :: _, [] => by simp [strLtB]
  | a :: as, b :: bs => by
    simp only [strLtB]
    split_ifs with h1 h2 <;> intro h
    · omega
    · rfl
    · exact absurd h (by simp)
    · exact strLtB_asymm as bs h

theorem strLtB_trans :
    ∀ (a b c : List Char), strLtB a b = true → strLtB b c = true → strLtB a c = true
  | [], [], _ => by simp [strLtB]
  | [], _ :: _, [] => by simp [strLtB]
  | [], _ :: _, _ :: _ => by simp [strLtB]
  | _ :: _, [], _ => by simp [strLtB]
  | _ :: _, _ :: _, [] => by simp [strLtB]
  | a :: as, b :: bs, c :: cs => by
    simp only [strLtB]
    split_ifs with h1 h2 h3 h4 h5 h6 <;> intro hab hbc <;>
      first
        | exact hbc.elim
        | exact hab.elim
        | rfl
        | omega
        | exact strLtB_trans as bs cs hab hbc

theorem strLtB_eq_of_not :
    ∀ (a b : List Char), strLtB a b = false → strLtB b a = false → a = b
  | [], [] => by simp
  | [], _ :: _ => by simp [strLtB]
  | _ :: _, [] => by
    intro _ h
    simp [strLtB] at h
  | a :: as, b :: bs => by
    simp only [strLtB]
    split_ifs with h1 h2 <;> intro hab hba
    all_goals try exact hab.elim
    all_goals try exact hba.elim
    have hv : a.val.toNat = b.val.toNat := by omega
    have ha : a = b := Char.ext (UInt32.toNat.inj hv)
    rw [ha, strLtB_eq_of_not as bs hab hba]

theorem stringEqOfData {a b : String} (h : a.data = b.data) : a = b := by
  cases a
  cases b
  exact congrArg String.mk h

theorem strLt_asymm {a b : String} (h : strLt a b) : ¬ strLt b a := by
  intro h2
  have hf := strLtB_asymm a.data b.data h
  rw [strLt, hf] at h2
  exact Bool.noConfusion h2

theorem strLt_trans {a b c : String} (h1 : strLt a b) (h2 : strLt b c) :
    strLt a c :=
  strLtB_trans a.data b.data c.data h1 h2

theorem strLt_eq_of_not {a b : String} (h1 : ¬ strLt a b) (h2 : ¬ strLt b a) :
    a = b := by
  rw [strLt, Bool.not_eq_true] at h1 h2
  exact stringEqOfData (strLtB_eq_of_not a.data b.data h1 h2)

theorem strLt_irrefl (a : String) : ¬ strLt a a := by
  rw [strLt, strLtB_irrefl]
  simp

theorem cowEqOfParts :
    ∀ {a b : CowString}, a.tag = b.tag → a.asStr = b.asStr → a = b
  | .borrowed _, .borrowed _, _, h2 => by
    simp only [CowString.asStr] at h2
    rw [h2]
  | .borrowed _, .owned _, h1, _ => by simp [CowString.tag] at h1
  | .owned _, .borrowed _, h1, _ => by simp [CowString.tag] at h1
  | .owned _, .owned _, _, h2 => by
    simp only [CowString.asStr] at h2
    rw [h2]

theorem cow_lt_trans {a b c : CowString} (h1 : CowString.lt a b)
    (h2 : CowString.lt b c) : CowString.lt a c := by
  rcases h1 with h1 | ⟨h1, h1s⟩ <;> rcases h2 with h2 | ⟨h2, h2s⟩
  · exact Or.inl (by omega)
  · exact Or.inl (by omega)
  · exact Or.inl (by omega)
  · exact Or.inr ⟨by omega, strLt_trans h1s h2s⟩

theorem cow_lt_asymm {a b : CowString} (h : CowString.lt a b) :
    ¬ CowString.lt b a := by
  intro h2
  rcases h with h | ⟨h, hs⟩ <;> rcases h2 with h2 | ⟨h2, h2s⟩
  · omega
  · omega
  · omega
  · exact strLt_asymm hs h2s

theorem cow_lt_irrefl (a : CowString) : ¬ CowString.lt a a := by
  intro h
  rcases h with h | ⟨_, hs⟩
  · omega
  · exact strLt_irrefl a.asStr hs

theorem cow_lt_ne {a b : CowString} (h : CowString.lt a b) : a ≠ b := by
  intro he
  rw [he] at h
  exact cow_lt_irrefl b h

theorem cow_eq_of_not_lt {a b : CowString} (h1 : ¬ CowString.lt a b)
    (h2 : ¬ CowString.lt b a) : a = b := by
  rw [CowString.lt, not_or, not_and] at h1 h2
  have ht : a.tag = b.tag := by omega
  exact cowEqOfParts ht (strLt_eq_of_not (h1.2 ht) (h2.2 ht.symm))

/-! ### `insertRM` and `hashVisit` lemmas -/

theorem mem_insertRM :
    ∀ (m : RecordMap) (k : CowString) (v : SerializeValue)
      (p : CowString × SerializeValue), p ∈ insertRM k v m → p.1 = k ∨ p ∈ m
  | [], _, _, p => by
    intro hp
    simp only [insertRM, List.mem_singleton] at hp
    exact Or.inl (by rw [hp])
  | (k0, v0) :: rest, k, v, p => by
    simp only [insertRM]
    split_ifs with h1 h2 <;> intro hp
    · rcases List.mem_cons.mp hp with h | h
      · exact Or.inl (by rw [h])
      · exact Or.inr h
    · rcases List.mem_cons.mp hp with h | h
      · exact Or.inr (List.mem_cons.mpr (Or.inl h))
      · rcases mem_insertRM rest k v p h with h | h
        · exact Or.inl h
        · exact Or.inr (List.mem_cons.mpr (Or.inr h))
    · have hk : k0 = k := cow_eq_of_not_lt h2 h1
      rcases List.mem_cons.mp hp with h | h
      · exact Or.inl (by rw [h, hk])
      · exact Or.inr (List.mem_cons.mpr (Or.inr h))

theorem insertRM_sorted :
    ∀ (m : RecordMap) (k : CowString) (v : SerializeValue), RMSorted m →
      RMSorted (insertRM k v m)
  | [], k, v, _ => by
    simp [insertRM, RMSorted]
  | (k0, v0) :: rest, k, v, hm => by
    have hhead := (List.pairwise_cons.mp hm).1
    have htail := (List.pairwise_cons.mp hm).2
    simp only [insertRM]
    split_ifs with h1 h2
    · refine List.pairwise_cons.mpr ⟨?_, hm⟩
      intro q hq
      rcases List.mem_cons.mp hq with h | h
      · rw [h]
        exact h1
      · exact cow_lt_trans h1 (hhead q h)
    · refine List.pairwise_cons.mpr ⟨?_, insertRM_sorted rest k v htail⟩
      intro q hq
      rcases mem_insertRM rest k v q hq with h | h
      · rw [h]
        exact h2
      · exact hhead q h
    · exact List.pairwise_cons.mpr ⟨hhead, htail⟩

theorem rmLookup_insertRM_self :
    ∀ (m : RecordMap) (k : CowString) (v : SerializeValue),
      rmLookup (insertRM k v m) k = some v
  | [], k, v => by simp [insertRM, rmLookup, List.find?]
  | (k0, v0) :: rest, k, v => by
    simp only [insertRM]
    split_ifs with h1 h2
    · simp [rmLookup, List.find?]
    · have hne : (k0 == k) = false := by
        simp only [beq_eq_false_iff_ne, ne_eq]
        exact fun he => cow_lt_ne h2 he
      simp only [rmLookup, List.find?, hne]
      exact rmLookup_insertRM_self rest k v
    · have hk : k0 = k := cow_eq_of_not_lt h2 h1
      simp [rmLookup, List.find?, hk]

theorem rmLookup_insertRM_ne :
    ∀ (m : RecordMap) (k k' : CowString) (v : SerializeValue), k' ≠ k →
      rmLookup (insertRM k v m) k' = rmLookup m k'
  | [], k, k', v, hne => by
    have h : (k == k') = false := by
      simp only [beq_eq_false_iff_ne, ne_eq]
      exact fun he => hne he.symm
    simp [insertRM, rmLookup, List.find?, h]
  | (k0, v0) :: rest, k, k', v, hne => by
    have hkk : (k == k') = false := by
      simp only [beq_eq_false_iff_ne, ne_eq]
      exact fun he => hne he.symm
    simp only [insertRM]
    split_ifs with h1 h2
    · simp [rmLookup, List.find?, hkk]
    · by_cases hk0 : (k0 == k') = true
      · simp [rmLookup, List.find?, hk0]
      · simp only [rmLookup, List.find?, Bool.not_eq_true] at hk0 ⊢
        rw [hk0]
        exact rmLookup_insertRM_ne rest k k' v hne
    · have hk : k0 = k := cow_eq_of_not_lt h2 h1
      have hk0 : (k0 == k') = false := by
        simp only [beq_eq_false_iff_ne, ne_eq]
        exact fun he => hne (hk ▸ he).symm
      simp [rmLookup, List.find?, hk0]

theorem insertRM_of_forall_lt :
    ∀ (m : RecordMap) (k : CowString) (v : SerializeValue),
      (∀ p ∈ m, CowString.lt p.1 k) → insertRM k v m = m ++ [(k, v)]
  | [], _, _, _ => rfl
  | (k0, v0) :: rest, k, v, h => by
    have h0 : CowString.lt k0 k := h (k0, v0) (List.mem_cons_self _ _)
    simp only [insertRM]
    split_ifs with h1
    · exact absurd h0 (cow_lt_asymm h1)
    · rw [insertRM_of_forall_lt rest k v (fun p hp => h p (List.mem_cons.mpr (Or.inr hp)))]
      simp

/-- Keys of entries, as a pair relation for sortedness statements. -/
def keyLt (p q : CowString × SerializeValue) : Prop :=
  CowString.lt p.1 q.1

theorem foldl_insertRM_eq_append :
    ∀ (l acc : RecordMap),
      (∀ p ∈ acc, ∀ q ∈ l, CowString.lt p.1 q.1) → List.Pairwise keyLt l →
      l.foldl (fun m p => insertRM p.1 p.2 m) acc = acc ++ l
  | [], acc, _, _ => by simp
  | p :: l', acc, hal, hl => by
    have hstep : insertRM p.1 p.2 acc = acc ++ [p] :=
      insertRM_of_forall_lt acc p.1 p.2
        (fun q hq => hal q hq p (List.mem_cons_self _ _))
    have hhead := (List.pairwise_cons.mp hl).1
    have htail := (List.pairwise_cons.mp hl).2
    have hrec := foldl_insertRM_eq_append l' (acc ++ [p])
      (by
        intro r hr q hq
        rcases List.mem_append.mp hr with h | h
        · exact hal r h q (List.mem_cons.mpr (Or.inr hq))
        · rw [List.mem_singleton.mp h]
          exact hhead q hq)
      htail
    simp only [List.foldl_cons, hstep, hrec, List.append_assoc, List.singleton_append]

/-! ### Visitor trace lemmas -/

theorem serializeValue_owned_live (fv : FieldVal) :
    serializeValue (HashVisit.valueFor fv) = serializeValue (SerdeMapVisitor.valueFor fv) := by
  cases fv <;> rfl

theorem serializeValue_deserValue (w : SerValue) :
    serializeValue (deserValue w) = w := by
  cases w <;> rfl

theorem recordField_ok (D : DownstreamMap ε)
    (hD : ∀ hist ent, D.entryResult hist ent = none)
    (v : SerdeMapVisitor ε) (p : String × FieldVal) (hv : v.state = .ok ()) :
    recordField D v p = ⟨v.calls ++ [liveEntry p], .ok ()⟩ := by
  unfold recordField
  rw [hv, hD]

theorem recordField_error (D : DownstreamMap ε) (v : SerdeMapVisitor ε)
    (p : String × FieldVal) (e : ε) (hv : v.state = .error e) :
    recordField D v p = v := by
  unfold recordField
  rw [hv]

theorem visitAll_ok (D : DownstreamMap ε)
    (hD : ∀ hist ent, D.entryResult hist ent = none) :
    ∀ (l : List (String × FieldVal)) (v : SerdeMapVisitor ε), v.state = .ok () →
      visitAll D v l = ⟨v.calls ++ l.map liveEntry, .ok ()⟩
  | [], v, hv => by
    cases v with
    | mk calls st =>
      simp only [visitAll, List.foldl_nil, List.map_nil, List.append_nil]
      simp only at hv
      rw [hv]
  | p :: l', v, hv => by
    rw [visitAll, List.foldl_cons, recordField_ok D hD v p hv]
    have hr := visitAll_ok D hD l' ⟨v.calls ++ [liveEntry p], .ok ()⟩ rfl
    rw [visitAll] at hr
    rw [hr]
    simp

theorem serializeLiveFields_eq (lf : LiveFields) :
    serializeLiveFields lf = ⟨some lf.declaredCount, lf.visited.map liveEntry⟩ := by
  unfold serializeLiveFields
  rw [visitAll_ok okDownstream (fun _ _ => rfl) lf.visited (SerdeMapVisitor.init Unit) rfl]
  simp [SerdeMapVisitor.init]

/-! ### `hashVisit` characterization -/

theorem hashVisit_foldl_pairs (visited : List (String × FieldVal)) :
    hashVisit visited =
      (visited.map (fun p => (CowString.owned p.1, HashVisit.valueFor p.2))).foldl
        (fun m q => insertRM q.1 q.2 m) [] := by
  rw [List.foldl_map]
  rfl

theorem foldl_insertRM_sorted (l : List (CowString × SerializeValue)) :
    ∀ acc, RMSorted acc → RMSorted (l.foldl (fun m q => insertRM q.1 q.2 m) acc) := by
  induction l with
  | nil => exact fun acc h => h
  | cons q l' ih =>
    intro acc h
    exact ih (insertRM q.1 q.2 acc) (insertRM_sorted acc q.1 q.2 h)

theorem hashVisit_sorted (visited : List (String × FieldVal)) :
    RMSorted (hashVisit visited) := by
  rw [hashVisit_foldl_pairs]
  exact foldl_insertRM_sorted _ [] List.Pairwise.nil

theorem foldl_insertRM_mem (l : List (CowString × SerializeValue)) :
    ∀ acc p, p ∈ l.foldl (fun m q => insertRM q.1 q.2 m) acc →
      p ∈ acc ∨ ∃ q ∈ l, p.1 = q.1 := by
  induction l with
  | nil => exact fun acc p h => Or.inl h
  | cons q l' ih =>
    intro acc p h
    rcases ih (insertRM q.1 q.2 acc) p h with h | ⟨r, hr, hpr⟩
    · rcases mem_insertRM acc q.1 q.2 p h with h | h
      · exact Or.inr ⟨q, List.mem_cons_self _ _, h⟩
      · exact Or.inl h
    · exact Or.inr ⟨r, List.mem_cons.mpr (Or.inr hr), hpr⟩

theorem hashVisit_keys_owned (visited : List (String × FieldVal)) :
    ∀ p ∈ hashVisit visited, ∃ q ∈ visited, p.1 = CowString.owned q.1 := by
  intro p hp
  rw [hashVisit_foldl_pairs] at hp
  rcases foldl_insertRM_mem _ [] p hp with h | ⟨r, hr, hpr⟩
  · exact absurd h (List.not_mem_nil p)
  · obtain ⟨q, hq, rfl⟩ := List.mem_map.mp hr
    exact ⟨q, hq, hpr⟩

theorem rmLookup_hashVisit (visited : List (String × FieldVal)) (name : String) :
    rmLookup (hashVisit visited) (.owned name) =
      (lastValueFor visited name).map HashVisit.valueFor := by
  induction visited using List.reverseRecOn with
  | nil => rfl
  | append_singleton l a ih =>
    obtain ⟨n, fv⟩ := a
    rw [hashVisit, List.foldl_append, List.foldl_cons, List.foldl_nil]
    by_cases hn : n = name
    · subst hn
      rw [rmLookup_insertRM_self]
      unfold lastValueFor
      rw [List.reverse_append]
      simp [List.find?]
    · rw [rmLookup_insertRM_ne _ _ _ _
        (fun he => hn (CowString.owned.inj he).symm)]
      rw [show (l.foldl (fun m p => insertRM (CowString.owned p.1)
        (HashVisit.valueFor p.2) m) [] : RecordMap) = hashVisit l from rfl]
      rw [ih]
      unfold lastValueFor
      rw [List.reverse_append]
      have hb : (n == name) = false := by simpa using hn
      simp [List.find?, hb]

/-! ### Extensionality of sorted record maps -/

theorem rmLookup_head (k : CowString) (v : SerializeValue) (m : RecordMap) :
    rmLookup ((k, v) :: m) k = some v := by
  simp [rmLookup, List.find?]

theorem rmLookup_cons_ne (k k' : CowString) (v : SerializeValue) (m : RecordMap)
    (h : (k == k') = false) :
    rmLookup ((k, v) :: m) k' = rmLookup m k' := by
  simp [rmLookup, List.find?, h]

theorem key_mem_of_rmLookup_some {m : RecordMap} {k : CowString} {v : SerializeValue}
    (h : rmLookup m k = some v) : ∃ p ∈ m, p.1 = k := by
  unfold rmLookup at h
  cases hf : m.find? (fun p => p.1 == k) with
  | none =>
    rw [hf] at h
    simp at h
  | some p =>
    have hp := List.find?_some hf
    have hm := List.mem_of_find?_eq_some hf
    exact ⟨p, hm, by simpa using hp⟩

theorem rmLookup_eq_none_of_lt_all (m : RecordMap) (k : CowString)
    (h : ∀ p ∈ m, CowString.lt k p.1) : rmLookup m k = none := by
  unfold rmLookup
  rw [List.find?_eq_none.mpr]
  · rfl
  · intro p hp
    simp only [Bool.not_eq_true, beq_eq_false_iff_ne, ne_eq]
    exact fun he => cow_lt_ne (h p hp) he.symm

theorem rm_ext_sorted :
    ∀ (m₁ m₂ : RecordMap), RMSorted m₁ → RMSorted m₂ →
      (∀ k, rmLookup m₁ k = rmLookup m₂ k) → m₁ = m₂
  | [], [], _, _, _ => rfl
  | [], (k2, v2) :: t2, _, _, hl => by
    have h := hl k2
    rw [rmLookup_head] at h
    simp [rmLookup, List.find?] at h
  | (k1, v1) :: t1, [], _, _, hl => by
    have h := hl k1
    rw [rmLookup_head] at h
    simp [rmLookup, List.find?] at h
  | (k1, v1) :: t1, (k2, v2) :: t2, h1, h2, hl => by
    have hh1 := (List.pairwise_cons.mp h1).1
    have ht1 := (List.pairwise_cons.mp h1).2
    have hh2 := (List.pairwise_cons.mp h2).1
    have ht2 := (List.pairwise_cons.mp h2).2
    have hk : k1 = k2 := by
      by_contra hne
      have e1 := hl k1
      rw [rmLookup_head] at e1
      rw [rmLookup_cons_ne k2 k1 v2 t2
        (by simpa using fun he => hne he.symm)] at e1
      obtain ⟨p, hpm, hpk⟩ := key_mem_of_rmLookup_some e1.symm
      have hlt21 : CowString.lt k2 k1 := hpk ▸ hh2 p hpm
      have e2 := hl k2
      rw [rmLookup_head] at e2
      rw [rmLookup_cons_ne k1 k2 v1 t1 (by simpa using hne)] at e2
      obtain ⟨q, hqm, hqk⟩ := key_mem_of_rmLookup_some e2
      have hlt12 : CowString.lt k1 k2 := hqk ▸ hh1 q hqm
      exact cow_lt_asymm hlt12 hlt21
    subst hk
    have hv : v1 = v2 := by
      have h := hl k1
      rw [rmLookup_head, rmLookup_head] at h
      exact Option.some.inj h
    subst hv
    have htl : ∀ k, rmLookup t1 k = rmLookup t2 k := by
      intro k
      by_cases hk1 : k = k1
      · subst hk1
        rw [rmLookup_eq_none_of_lt_all t1 k hh1,
          rmLookup_eq_none_of_lt_all t2 k hh2]
      · have h := hl k
        rw [rmLookup_cons_ne k1 k v1 t1 (by simpa using fun he => hk1 he.symm),
          rmLookup_cons_ne k1 k v1 t2 (by simpa using fun he => hk1 he.symm)] at h
        exact h
    rw [rm_ext_sorted t1 t2 ht1 ht2 htl]

/-! ### Helpers for the equivalence and round-trip claims -/

theorem visitAll_sticky_error (D : DownstreamMap ε) :
    ∀ (fields : List (String × FieldVal)) (v : SerdeMapVisitor ε) (e : ε),
      v.state = .error e → visitAll D v fields = v
  | [], v, _, _ => rfl
  | p :: l', v, e, hv => by
    rw [visitAll, List.foldl_cons, recordField_error D v p e hv]
    exact visitAll_sticky_error D l' v e hv

theorem hashVisit_of_sorted (visited : List (String × FieldVal))
    (hs : List.Pairwise strLt (visited.map Prod.fst)) :
    hashVisit visited =
      visited.map (fun p => (CowString.owned p.1, HashVisit.valueFor p.2)) := by
  rw [hashVisit_foldl_pairs]
  rw [foldl_insertRM_eq_append _ []
    (fun p hp => absurd hp (List.not_mem_nil p)) ?sorted]
  · simp
  case sorted =>
    rw [List.pairwise_map]
    rw [List.pairwise_map] at hs
    refine hs.imp ?_
    intro a b hab
    exact Or.inr ⟨rfl, hab⟩

theorem live_eq_mat_of_sorted (lf : LiveFields)
    (hs : List.Pairwise strLt (lf.visited.map Prod.fst))
    (hc : lf.declaredCount = lf.visited.length) :
    serializeLiveFields lf = serializeDeFields (hashVisit lf.visited) := by
  rw [serializeLiveFields_eq, hashVisit_of_sorted lf.visited hs]
  unfold serializeDeFields
  have hfe : (deEntry ∘ fun p : String × FieldVal =>
      (CowString.owned p.1, HashVisit.valueFor p.2)) = liveEntry := by
    funext p
    simp [deEntry, liveEntry, CowString.asStr, serializeValue_owned_live]
  congr 1
  · rw [List.length_map, hc]
  · rw [List.map_map, hfe]

theorem deserRecordMap_foldl_pairs (entries : List SEntry) :
    deserRecordMap entries =
      (entries.map (fun q => (CowString.borrowed q.1, deserValue q.2))).foldl
        (fun m q => insertRM q.1 q.2 m) [] := by
  rw [List.foldl_map]
  rfl

theorem deser_serializeDe_of_sorted (m : RecordMap)
    (hs : List.Pairwise strLt (m.map (fun p => p.1.asStr))) :
    deserRecordMap (serializeDeFields m).entries =
      m.map (fun p => (CowString.borrowed p.1.asStr, deserValue (serializeValue p.2))) := by
  unfold serializeDeFields
  rw [deserRecordMap_foldl_pairs]
  simp only [List.map_map]
  rw [foldl_insertRM_eq_append _ []
    (fun p hp => absurd hp (List.not_mem_nil p)) ?sorted]
  · simp only [List.nil_append]
    rfl
  case sorted =>
    rw [List.pairwise_map]
    rw [List.pairwise_map] at hs
    refine hs.imp ?_
    intro a b hab
    exact Or.inr ⟨rfl, hab⟩

theorem rmLookup_hashVisit_borrowed (visited : List (String × FieldVal))
    (s : String) :
    rmLookup (hashVisit visited) (.borrowed s) = none := by
  unfold rmLookup
  rw [List.find?_eq_none.mpr]
  · rfl
  · intro p hp
    obtain ⟨q, _, hpk⟩ := hashVisit_keys_owned visited p hp
    simp [hpk]

/-! ### Claim theorems -/

/-- C1, counterexample: for the event whose fields are visited in the order
`msg`, `code`, serializing the Live wrapper emits the entries in visitation
order, while serializing the `to_owned` Materialized wrapper emits them in
ascending key order (`BTreeMap`), so the two outputs differ under a
deterministic serializer. -/
theorem claimC1_counterexample :
    (SerializeRecordFields.ser
        ⟨2, [("msg", .fStr "not found"), ("code", .fU64 404)]⟩).serialize ≠
      (SerializeRecordFields.ser
        ⟨2, [("msg", .fStr "not found"), ("code", .fU64 404)]⟩).toOwned.serialize := by
  decide

/-- C1, amended: for an event (and likewise a span-field set and a record)
whose visited field names are strictly ascending and whose declared field
count equals the number of visited fields, serializing the Live wrapper and
serializing the Materialized wrapper obtained by `to_owned` produce
identical output under any deterministic serializer.  (In general the
Materialized output has the same per-name last values but in ascending
name order, with duplicates collapsed.) -/
theorem claimC1_live_mat_equiv (lf : LiveFields)
    (hs : List.Pairwise strLt (lf.visited.map Prod.fst))
    (hc : lf.declaredCount = lf.visited.length) :
    (SerializeRecordFields.ser lf).serialize =
        (SerializeRecordFields.ser lf).toOwned.serialize ∧
    (SerializeSpanFields.ser lf).serialize =
        (SerializeSpanFields.ser lf).toOwned.serialize ∧
    (SerializeRecord.ser lf).serialize =
        (SerializeRecord.ser lf).toOwned.serialize := by
  have h := live_eq_mat_of_sorted lf hs hc
  exact ⟨h, h, h⟩

/-- C1, witness: the amended equivalence at a concrete event whose fields
`code`, `msg` are visited in ascending name order. -/
theorem claimC1_live_mat_equiv_witness :
    (SerializeRecordFields.ser
        ⟨2, [("code", .fU64 404), ("msg", .fStr "not found")]⟩).serialize =
      (SerializeRecordFields.ser
        ⟨2, [("code", .fU64 404), ("msg", .fStr "not found")]⟩).toOwned.serialize :=
  (claimC1_live_mat_equiv ⟨2, [("code", .fU64 404), ("msg", .fStr "not found")]⟩
    (by decide) (by decide)).1

/-- C2: the Collector's contract.  A push with no recorded error performs
exactly one `serialize_entry` call appending the field's entry; a push
after a recorded error performs no serializer call and leaves the visitor
unchanged (and an entire visitation sequence after an error leaves it
unchanged — first-error-wins, sticky); `finish` returns the recorded error
if one exists, and otherwise closes the map and returns the close
result. -/
theorem claimC2_collector_contract {ε : Type} (D : DownstreamMap ε)
    (v : SerdeMapVisitor ε) (p : String × FieldVal) :
    (v.state = .ok () →
      (recordField D v p).calls = v.calls ++ [liveEntry p]) ∧
    (∀ e, v.state = .error e → recordField D v p = v) ∧
    (∀ e fields, v.state = .error e → visitAll D v fields = v) ∧
    (∀ e, v.state = .error e → SerdeMapVisitor.finish D v = .error e) ∧
    (v.state = .ok () → SerdeMapVisitor.finish D v =
      match D.endResult v.calls with
      | none => .ok v.calls
      | some e => .error e) := by
  refine ⟨?_, ?_, ?_, ?_, ?_⟩
  · intro hv
    unfold recordField
    rw [hv]
    cases D.entryResult v.calls (liveEntry p) <;> rfl
  · intro e hv
    exact recordField_error D v p e hv
  · intro e fields hv
    exact visitAll_sticky_error D fields v e hv
  · intro e hv
    unfold SerdeMapVisitor.finish
    rw [hv]
  · intro hv
    unfold SerdeMapVisitor.finish
    rw [hv]

/-- C2, witness: the contract at concrete inputs, including a visitor in
the recorded-error state. -/
theorem claimC2_collector_contract_witness :
    (recordField okDownstream (SerdeMapVisitor.init Unit)
        ("a", .fBool true)).calls = [liveEntry ("a", .fBool true)] ∧
    recordField okDownstream ⟨[], .error ()⟩ ("a", .fBool true) =
      (⟨[], .error ()⟩ : SerdeMapVisitor Unit) ∧
    visitAll okDownstream ⟨[], .error ()⟩ [("a", .fBool true)] =
      (⟨[], .error ()⟩ : SerdeMapVisitor Unit) ∧
    SerdeMapVisitor.finish okDownstream ⟨[], .error ()⟩ = .error () ∧
    SerdeMapVisitor.finish okDownstream (SerdeMapVisitor.init Unit) = .ok [] :=
  ⟨(claimC2_collector_contract okDownstream (SerdeMapVisitor.init Unit)
      ("a", .fBool true)).1 rfl,
   (claimC2_collector_contract okDownstream ⟨[], .error ()⟩
      ("a", .fBool true)).2.1 () rfl,
   (claimC2_collector_contract okDownstream ⟨[], .error ()⟩
      ("a", .fBool true)).2.2.1 () [("a", .fBool true)] rfl,
   (claimC2_collector_contract okDownstream ⟨[], .error ()⟩
      ("a", .fBool true)).2.2.2.1 () rfl,
   (claimC2_collector_contract okDownstream (SerdeMapVisitor.init Unit)
      ("a", .fBool true)).2.2.2.2 rfl⟩

/-- C3, counterexample: a valid (sorted under the derived `Ord`, which
compares representation before content) Materialized map with a `Borrowed`
key and an `Owned` key does not round-trip: deserialization rebuilds all
keys as `Borrowed`, re-sorting the entries by content and changing the
serialized entry order. -/
theorem claimC3_counterexample :
    RMSorted [(.borrowed "z", .u64 1), (.owned "a", .u64 2)] ∧
    (SerializeRecordFields.deserialize
        ((SerializeRecordFields.de
          [(.borrowed "z", .u64 1), (.owned "a", .u64 2)]).serialize).entries).serialize ≠
      (SerializeRecordFields.de
        [(.borrowed "z", .u64 1), (.owned "a", .u64 2)]).serialize := by
  decide

/-- C3, amended: for every Materialized wrapper whose key contents are
strictly ascending in map order (as holds for every map whose keys all
share one representation, in particular those built by `to_owned` or by
deserialization), deserializing the serialized form and re-serializing
reproduces the original content and field order; moreover every
field-value kind round-trips exactly at the output level, and a
debug-formatted value deserializes to its formatted-string snapshot. -/
theorem claimC3_roundtrip (m : RecordMap)
    (hs : List.Pairwise strLt (m.map (fun p => p.1.asStr))) :
    (SerializeRecordFields.deserialize
        ((SerializeRecordFields.de m).serialize).entries).serialize =
      (SerializeRecordFields.de m).serialize ∧
    (∀ w : SerValue, serializeValue (deserValue w) = w) ∧
    (∀ s : String, deserValue (.debugOut s) = .debug (.de (.borrowed s))) := by
  refine ⟨?_, serializeValue_deserValue, fun _ => rfl⟩
  show (SerializeRecordFields.de
      (deserRecordMap ((SerializeRecordFields.de m).serialize).entries)).serialize =
    (SerializeRecordFields.de m).serialize
  show serializeDeFields (deserRecordMap (serializeDeFields m).entries) =
    serializeDeFields m
  rw [deser_serializeDe_of_sorted m hs]
  unfold serializeDeFields
  have hfe : (deEntry ∘ fun p : CowString × SerializeValue =>
      (CowString.borrowed p.1.asStr, deserValue (serializeValue p.2))) = deEntry := by
    funext p
    simp [deEntry, CowString.asStr, serializeValue_deserValue]
  congr 1
  · rw [List.length_map]
  · rw [List.map_map, hfe]

/-- C3, witness: the amended round-trip at a concrete uniformly-owned map
holding a boolean and a debug-snapshot value. -/
theorem claimC3_roundtrip_witness :
    (SerializeRecordFields.deserialize
        ((SerializeRecordFields.de
          [(.owned "a", .bool true),
           (.owned "b", .debug (.de (.owned "x")))]).serialize).entries).serialize =
      (SerializeRecordFields.de
        [(.owned "a", .bool true),
         (.owned "b", .debug (.de (.owned "x")))]).serialize :=
  (claimC3_roundtrip
    [(.owned "a", .bool true), (.owned "b", .debug (.de (.owned "x")))]
    (by decide)).1

/-- C4: for every dual wrapper type (record fields, span fields, record,
field set, debug record), deserialization — the generic payload parse
followed by the `From` conversion — always yields the Materialized (`De`)
variant; it can never produce a Live (`Ser`) variant. -/
theorem claimC4_deserialize_materialized :
    (∀ entries, (SerializeRecordFields.deserialize entries).isDe = true) ∧
    (∀ entries, (SerializeSpanFields.deserialize entries).isDe = true) ∧
    (∀ entries, (SerializeRecord.deserialize entries).isDe = true) ∧
    (∀ elems, (SerializeFieldSet.deserialize elems).isDe = true) ∧
    (∀ s, (DebugRecord.deserialize s).isDe = true) :=
  ⟨fun _ => rfl, fun _ => rfl, fun _ => rfl, fun _ => rfl, fun _ => rfl⟩

/-- C5: materializing a Live wrapper via `HashVisit` yields a name-keyed
sorted map: the result is strictly sorted under the key order, every key
is an `Owned` copy of a visited field name, the value stored under a name
is the last value visited for that name (duplicates collapse), and the map
depends only on the last-value-per-name function of the visitation
sequence, not on the visitation order itself. -/
theorem claimC5_hashvisit_sorted_map (visited : List (String × FieldVal)) :
    RMSorted (hashVisit visited) ∧
    (∀ p ∈ hashVisit visited, ∃ q ∈ visited, p.1 = CowString.owned q.1) ∧
    (∀ name, rmLookup (hashVisit visited) (CowString.owned name) =
      (lastValueFor visited name).map HashVisit.valueFor) ∧
    (∀ other : List (String × FieldVal),
      (∀ name, lastValueFor visited name = lastValueFor other name) →
      hashVisit visited = hashVisit other) := by
  refine ⟨hashVisit_sorted visited, hashVisit_keys_owned visited,
    rmLookup_hashVisit visited, ?_⟩
  intro other hlast
  refine rm_ext_sorted _ _ (hashVisit_sorted visited) (hashVisit_sorted other) ?_
  intro k
  cases k with
  | borrowed s =>
    rw [rmLookup_hashVisit_borrowed, rmLookup_hashVisit_borrowed]
  | owned n =>
    rw [rmLookup_hashVisit, rmLookup_hashVisit, hlast n]

/-- C5, witness: two visitation orders of the same two fields materialize
to the same sorted map. -/
theorem claimC5_hashvisit_sorted_map_witness :
    hashVisit [("b", .fU64 1), ("a", .fBool true)] =
      hashVisit [("a", .fBool true), ("b", .fU64 1)] :=
  (claimC5_hashvisit_sorted_map [("b", .fU64 1), ("a", .fBool true)]).2.2.2
    [("a", .fBool true), ("b", .fU64 1)]
    (by
      intro name
      by_cases h1 : "a" = name <;> by_cases h2 : "b" = name
      · exact absurd (h1.trans h2.symm) (by decide)
      · subst h1
        decide
      · subst h2
        decide
      · have hb1 : ("a" == name) = false := by simpa using h1
        have hb2 : ("b" == name) = false := by simpa using h2
        unfold lastValueFor
        simp [List.find?, hb1, hb2])

/-- C6: on the live path, with a downstream serializer that accepts every
entry, the Collector emits exactly one map entry per pushed field, in push
order, with no reordering and no deduplication: n pushed fields produce
the n corresponding entries in visitation order. -/
theorem claimC6_order_preserved {ε : Type} (D : DownstreamMap ε)
    (hD : ∀ hist ent, D.entryResult hist ent = none)
    (fields : List (String × FieldVal)) :
    (visitAll D (SerdeMapVisitor.init ε) fields).calls = fields.map liveEntry ∧
    (visitAll D (SerdeMapVisitor.init ε) fields).calls.length = fields.length := by
  have h := visitAll_ok D hD fields (SerdeMapVisitor.init ε) rfl
  rw [h]
  simp [SerdeMapVisitor.init]

/-- C6, witness: a three-field push sequence with a duplicated name is
emitted verbatim, duplicates included, in push order. -/
theorem claimC6_order_preserved_witness :
    (visitAll okDownstream (SerdeMapVisitor.init Unit)
        [("b", .fU64 2), ("a", .fU64 1), ("b", .fU64 3)]).calls =
      [("b", SerValue.u64Out 2), ("a", SerValue.u64Out 1),
       ("b", SerValue.u64Out 3)] := by
  rw [(claimC6_order_preserved okDownstream (fun _ _ => rfl)
    [("b", .fU64 2), ("a", .fU64 1), ("b", .fU64 3)]).1]
  rfl

/-- C7, counterexample: the `(Borrowed "b", Owned "a")` pair is ordered
`lt` by the derived `Ord` although its contents `"b", "a"` are ordered
`gt` (as the all-`Owned` pair with the same contents shows): the ordering
of `CowString` observes the representation, contradicting the claim that
ordering depends only on content. -/
theorem claimC7_counterexample :
    CowString.lt (.borrowed "b") (.owned "a") ∧
    ¬ CowString.lt (.owned "b") (.owned "a") ∧
    (CowString.borrowed "b").asStr = (CowString.owned "b").asStr ∧
    (CowString.borrowed "a").asStr = (CowString.owned "a").asStr := by
  decide

/-- C7, amended: equality and hashing of `CowString` depend only on
content — a borrowed and an owned value with identical content compare
equal and hash identically under any hasher — but the derived ordering
compares the representation first: every `Borrowed` value sorts before
every `Owned` value regardless of content. -/
theorem claimC7_content_eq_hash (s t : String) (h : String → Nat) :
    CowString.beqContent (.borrowed s) (.owned s) = true ∧
    CowString.hashWith h (.borrowed s) = CowString.hashWith h (.owned s) ∧
    (∀ a b : CowString, CowString.beqContent a b = (a.asStr == b.asStr)) ∧
    CowString.lt (.borrowed s) (.owned t) := by
  refine ⟨?_, rfl, fun _ _ => rfl, Or.inl ?_⟩
  · simp [CowString.beqContent, CowString.asStr]
  · simp [CowString.tag]

/-- C8: `SerializeLevel` is a closed five-variant enumeration whose
declared `#[repr(usize)]` discriminants ascend with severity:
`Trace(0) < Debug(1) < Info(2) < Warn(3) < Error(4)`. -/
theorem claimC8_level_enum_order :
    (∀ l : SerializeLevel,
      l = .trace ∨ l = .debug ∨ l = .info ∨ l = .warn ∨ l = .error) ∧
    SerializeLevel.discr .trace < SerializeLevel.discr .debug ∧
    SerializeLevel.discr .debug < SerializeLevel.discr .info ∧
    SerializeLevel.discr .info < SerializeLevel.discr .warn ∧
    SerializeLevel.discr .warn < SerializeLevel.discr .error := by
  refine ⟨fun l => ?_, by decide, by decide, by decide, by decide⟩
  cases l <;> simp

/-- C9: the bounded (`no_std`) containers have fixed capacity 32; inserting
a fresh key into a full 32-entry map fails with a capacity error and
leaves the existing entries unchanged. -/
theorem claimC9_capacity {V : Type} (m : List (Nat × V)) (k : Nat) (v : V)
    (hfull : m.length = tracingMapCap)
    (hfresh : (m.map Prod.fst).contains k = false) :
    tracingMapCap = 32 ∧
    boundedInsert tracingMapCap m k v = (m, some (k, v)) := by
  refine ⟨rfl, ?_⟩
  unfold boundedInsert
  rw [hfresh, hfull]
  simp

/-- C9, witness: inserting a 33rd (fresh-keyed) entry into a concrete full
32-entry map is rejected with the map intact. -/
theorem claimC9_capacity_witness :
    boundedInsert tracingMapCap
        ((List.range 32).map (fun i => (i, ()))) 99 () =
      ((List.range 32).map (fun i => (i, ())), some (99, ())) :=
  (claimC9_capacity ((List.range 32).map (fun i => (i, ()))) 99 ()
    (by decide) (by decide)).2

/-- C10: the concrete scenario — an event with fields
`code = 404 (u64)`, `msg = "not found" (str)` and metadata
`name = "request"`, `target = "svc"`, `level = Warn`, `line = Some(88)` —
serializes to a record whose `fields` entry is the map
`{"code": 404, "msg": "not found"}` and whose `metadata` entry carries
exactly the given attributes with the level rendered as the literal token
`"WARN"`; and each `Level` maps to its `SerializeLevel` variant,
serialized as the uppercase variant name. -/
theorem claimC10_scenario :
    serializeEvent (EventModel.asSerde
        ⟨⟨2, [("code", .fU64 404), ("msg", .fStr "not found")]⟩,
         ⟨"request", "svc", .warn, none, none, some 88,
          ["code", "msg"], false, true⟩,
         none⟩) =
      ⟨⟨some 2, [("code", .u64Out 404), ("msg", .strOut "not found")]⟩,
       ⟨"request", "svc", "WARN", none, none, some 88,
        ⟨some 2, ["code", "msg"]⟩, false, true⟩,
       none⟩ ∧
    TracingLevel.trace.asSerde.token = "TRACE" ∧
    TracingLevel.debug.asSerde.token = "DEBUG" ∧
    TracingLevel.info.asSerde.token = "INFO" ∧
    TracingLevel.warn.asSerde.token = "WARN" ∧
    TracingLevel.error.asSerde.token = "ERROR" := by
  decide

end TracingSerde
